import Mathlib

set_option maxRecDepth 100000

/-!
Shallow embedding of `George.py`, a string-matching genetic algorithm.

Modelling conventions:
* Python strings are `List Char`; `ord`/`chr` round-trips in
  `generate_random_dna` cancel, so the sampled "DNA elements" are the
  target's characters themselves.
* Python floats produced by the program (fitness scores `score/len(target)`
  and their images under `* 100`) are modelled as exact rationals `ℚ`,
  always constructed through `mkRat` / `Rat.divInt` so that closed runs of
  the embedding reduce in the kernel.
* Randomness is explicit: `np.random.choice` over a list consumes one value
  of an integer stream `g : Nat → Nat` (the chosen index is `g k % len`),
  and each Bernoulli mutation draw consumes one value of a uniform stream
  `u : Nat → ℚ` (numpy draws `'mutate'` exactly when the uniform sample is
  `< rate`, given the cdf `[rate, 1]` and `searchsorted(..., side='right')`).
  A counter pair `RSt` tracks the positions consumed in each stream.
* Python exceptions are `Except PyErr`: `np.random.choice` on an empty
  sequence raises `ValueError` (`emptySample`), `score/len(target)` with an
  empty target raises `ZeroDivisionError` (`zeroDivision`), `max([])`
  raises `ValueError` (`maxOfEmpty`), an out-of-range subscript raises
  `IndexError` (`indexError`), and an invalid probability vector passed to
  `np.random.choice` raises `ValueError` (`badProbability`).
* `np.rint` rounds to the nearest integer, halves to the nearest even
  integer; it is modelled by `rintQ`, written with integer arithmetic on
  the numerator and denominator.
-/

/-- Stream of integer random draws; `np.random.choice` over a list of
length `n` consumes one value `v` and picks index `v % n`. -/
abbrev RandS := Nat → Nat

/-- Stream of uniform samples in `[0,1)` driving the Bernoulli mutation
draws. -/
abbrev UnifS := Nat → ℚ

/-- Positions already consumed in the two random streams. -/
structure RSt where
  k : Nat
  j : Nat
  deriving DecidableEq, Repr

/-- Python exceptions that `George.py` can raise. -/
inductive PyErr where
  | emptySample
  | zeroDivision
  | maxOfEmpty
  | indexError
  | badProbability
  deriving DecidableEq, Repr

/-- Model of `np.random.choice(xs)` for a list: raises `ValueError` on an
empty list, otherwise returns an element at a stream-chosen index. -/
def npChoice (g : RandS) (r : RSt) : List α → Except PyErr (α × RSt)
  | [] => .error .emptySample
  | a :: rest => .ok ((a :: rest).getD (g r.k % (rest.length + 1)) a, ⟨r.k + 1, r.j⟩)

/-- The `N` characters drawn by `np.random.choice(dna_elements, N)` from a
non-empty target, starting at stream position `k`. -/
def drawChars (g : RandS) (target : List Char) (k N : Nat) : List Char :=
  (List.range N).map fun i => target.getD (g (k + i) % target.length) 'A'

/-- Model of `generate_random_dna(N, target)` (George.py lines 13-36):
the concatenation `chr(ord c)` is the identity, so the draw is `N`
independent uniform choices from the target's characters; `np.random.choice`
raises on an empty `dna_elements` list regardless of `N`. -/
def generate_random_dna (g : RandS) (r : RSt) (N : Nat) (target : List Char) :
    Except PyErr (List Char × RSt) :=
  if target.isEmpty then .error .emptySample
  else .ok (drawChars g target r.k N, ⟨r.k + N, r.j⟩)

/-- The loop of `generate_initial_population`: `n` successive calls of
`generate_random_dna(len(target), target)`, appended in order. -/
def genPop (g : RandS) (target : List Char) : Nat → RSt → Except PyErr (List (List Char) × RSt)
  | 0, r => .ok ([], r)
  | n + 1, r => do
    let (dna, r₁) ← generate_random_dna g r target.length target
    let (rest, r₂) ← genPop g target n r₁
    .ok (dna :: rest, r₂)

/-- The score loop of `generate_fitness`: number of positions `i` below
`len(target)` with `member[i] == target[i]` (first argument is the target). -/
def matchScore : List Char → List Char → Nat
  | [], _ => 0
  | _ :: _, [] => 0
  | t :: ts, c :: cs => (if c = t then 1 else 0) + matchScore ts cs

/-- Fitness of one member, `score / len(target)` (George.py lines 100-105):
`member[i]` raises `IndexError` when the member is shorter than the target,
and the division raises `ZeroDivisionError` on an empty target. -/
def fitOne (target member : List Char) : Except PyErr ℚ :=
  if member.length < target.length then .error .indexError
  else if target.length = 0 then .error .zeroDivision
  else .ok (mkRat (matchScore target member) target.length)

/-- The member loop of `generate_fitness`, scores in population order. -/
def fitList (target : List Char) : List (List Char) → Except PyErr (List ℚ)
  | [] => .ok []
  | m :: ms => do
    let q ← fitOne target m
    let rest ← fitList target ms
    .ok (q :: rest)

/-- Model of `np.rint` on an exact rational: round to the nearest integer,
halves to the nearest even integer.  `q.floor + 1` is `⌈q⌉` whenever `q` is
not an integer, which covers both branches that use it. -/
def rintQ (q : ℚ) : ℤ :=
  let f := q.floor
  let rem : ℤ := q.num - f * (q.den : ℤ)
  if 2 * rem < (q.den : ℤ) then f
  else if (q.den : ℤ) < 2 * rem then f + 1
  else if f % 2 = 0 then f else f + 1

/-- Exact multiplication of a rational by `100`, written through
`Rat.divInt` so that it evaluates; `qMul100_eq` proves it equals `100 * q`. -/
def qMul100 (q : ℚ) : ℚ := Rat.divInt (100 * q.num) q.den

/-- The loop of `create_mating_pool` (George.py lines 114-119): member `i`
contributes `int(np.rint(score * 100))` consecutive copies; `self.fitness[i]`
raises `IndexError` when the fitness list is shorter than the population. -/
def poolOf : List (List Char) → List ℚ → Except PyErr (List (List Char))
  | [], _ => .ok []
  | _ :: _, [] => .error .indexError
  | m :: ms, f :: fs => do
    let rest ← poolOf ms fs
    .ok (List.replicate (rintQ (qMul100 f)).toNat m ++ rest)

/-- Python's binary `max`, folded over a list: keeps the earlier argument
on ties. -/
def pyMax (a b : ℚ) : ℚ := if a < b then b else a

/-- Model of Python `max(fitness)`: `ValueError` on an empty list. -/
def listMaxQ : List ℚ → Except PyErr ℚ
  | [] => .error .maxOfEmpty
  | a :: rest => .ok (rest.foldl pyMax a)

/-- Model of Python `list.index(x)`: index of the first occurrence. -/
def firstIdx (x : ℚ) : List ℚ → Nat
  | [] => 0
  | a :: rest => if a = x then 0 else firstIdx x rest + 1

/-- The baby built position by position in `reproduction` (George.py lines
137-145): keep the first parent's character where it already matches the
target, otherwise take the second parent's. -/
def mkBaby (target pA pB : List Char) : List Char :=
  (List.range target.length).map fun i =>
    if pA.getD i 'A' = target.getD i 'A' then pA.getD i 'A' else pB.getD i 'A'

/-- One iteration of the `reproduction` loop (George.py lines 132-147):
pick `parentA` from the pool, exclude every pool entry with the same
value, pick `parentB` from the rest, and build the two babies.  The body
raises `IndexError` at `parentA[i]` / `parentB[i]` exactly when a parent is
shorter than the target. -/
def reproStep (g : RandS) (target : List Char) (pool : List (List Char)) (r : RSt) :
    Except PyErr ((List Char × List Char) × RSt) := do
  let (pA, r₁) ← npChoice g r pool
  let others := pool.filter fun m => m ≠ pA
  let (pB, r₂) ← npChoice g r₁ others
  if pA.length < target.length ∨ pB.length < target.length then .error .indexError
  else .ok ((mkBaby target pA pB, mkBaby target pB pA), r₂)

/-- The `populationsize/2` iterations of the `reproduction` loop, each
appending `babyA` then `babyB`. -/
def reproLoop (g : RandS) (target : List Char) (pool : List (List Char)) :
    Nat → RSt → Except PyErr (List (List Char) × RSt)
  | 0, r => .ok ([], r)
  | n + 1, r => do
    let ((a, b), r₁) ← reproStep g target pool r
    let (rest, r₂) ← reproLoop g target pool n r₁
    .ok (a :: b :: rest, r₂)

/-- One character of `mutation` (George.py lines 163-168):
`np.random.choice(['mutate','no_mutate'], p=[rate, 1-rate])` first rejects an
invalid probability vector, then draws `'mutate'` iff the uniform sample is
below `rate`; a mutation redraws the character via
`generate_random_dna(1, target)`. -/
def mutateChar (g : RandS) (u : UnifS) (rate : ℚ) (target : List Char) (c : Char) (r : RSt) :
    Except PyErr (Char × RSt) :=
  if rate < 0 ∨ 1 < rate then .error .badProbability
  else if u r.j < rate then
    if target.isEmpty then .error .emptySample
    else .ok (target.getD (g r.k % target.length) 'A', ⟨r.k + 1, r.j + 1⟩)
  else .ok (c, ⟨r.k, r.j + 1⟩)

/-- The per-character loop of `mutation` over one member. -/
def mutateDNA (g : RandS) (u : UnifS) (rate : ℚ) (target : List Char) :
    List Char → RSt → Except PyErr (List Char × RSt)
  | [], r => .ok ([], r)
  | c :: cs, r => do
    let (c', r₁) ← mutateChar g u rate target c r
    let (rest, r₂) ← mutateDNA g u rate target cs r₁
    .ok (c' :: rest, r₂)

/-- The per-member loop of `mutation` over the population. -/
def mutatePop (g : RandS) (u : UnifS) (rate : ℚ) (target : List Char) :
    List (List Char) → RSt → Except PyErr (List (List Char) × RSt)
  | [], r => .ok ([], r)
  | m :: ms, r => do
    let (m', r₁) ← mutateDNA g u rate target m r
    let (rest, r₂) ← mutatePop g u rate target ms r₁
    .ok (m' :: rest, r₂)

/-- State of an `Evolution` object (George.py lines 63-72).  `populationsize`
is a Python integer, so it is modelled as `ℤ`; `range(0, n)` over a
non-positive `n` is empty, which `Int.toNat` captures. -/
structure EvoState where
  target : List Char
  populationsize : ℤ
  population : List (List Char)
  fitness : List ℚ
  mating_pool : List (List Char)
  generation : Nat
  target_acquired : Bool
  max_fitness : Option ℚ
  target_population : Option (List Char)
  closest_target : Option (List Char)
  deriving DecidableEq, Repr

/-- Model of `Evolution.generate_initial_population` (George.py lines 82-92). -/
def Evolution.generate_initial_population (g : RandS) (s : EvoState) (r : RSt) :
    Except PyErr (EvoState × RSt) := do
  let (pop, r') ← genPop g s.target s.populationsize.toNat r
  .ok ({ s with population := pop }, r')

/-- Model of `Evolution.generate_fitness` (George.py lines 94-105). -/
def Evolution.generate_fitness (s : EvoState) : Except PyErr EvoState := do
  let scores ← fitList s.target s.population
  .ok { s with fitness := scores }

/-- Model of `Evolution.create_mating_pool` (George.py lines 107-119). -/
def Evolution.create_mating_pool (s : EvoState) : Except PyErr EvoState := do
  let pool ← poolOf s.population s.fitness
  .ok { s with mating_pool := pool }

/-- Model of `Evolution.check_progress` (George.py lines 172-184):
`max_fitness` is the maximum score, `closest_target` the member at the
first index achieving it, and exactly when the maximum equals `1.0` the
`target_acquired` flag is set and `target_population` recorded. -/
def Evolution.check_progress (s : EvoState) : Except PyErr EvoState := do
  let m ← listMaxQ s.fitness
  let idx := firstIdx m s.fitness
  match s.population.get? idx with
  | none => .error .indexError
  | some c =>
    if m = 1 then
      .ok { s with max_fitness := some m, closest_target := some c,
                   target_acquired := true, target_population := some c }
    else
      .ok { s with max_fitness := some m, closest_target := some c }

/-- Model of `Evolution.reproduction` (George.py lines 121-147):
`int(populationsize/2)` pair-producing iterations over the mating pool
replace the population wholesale. -/
def Evolution.reproduction (g : RandS) (s : EvoState) (r : RSt) :
    Except PyErr (EvoState × RSt) := do
  let (pop, r') ← reproLoop g s.target s.mating_pool (s.populationsize.toNat / 2) r
  .ok ({ s with population := pop }, r')

/-- Model of `Evolution.mutation` (George.py lines 149-170). -/
def Evolution.mutation (g : RandS) (u : UnifS) (rate : ℚ) (s : EvoState) (r : RSt) :
    Except PyErr (EvoState × RSt) := do
  let (pop, r') ← mutatePop g u rate s.target s.population r
  .ok ({ s with population := pop }, r')

/-- Model of `Evolution.new_generation` (George.py lines 186-196):
reproduction, mutation, fitness, progress check, mating-pool rebuild, then
the generation counter increments. -/
def Evolution.new_generation (g : RandS) (u : UnifS) (rate : ℚ) (s : EvoState) (r : RSt) :
    Except PyErr (EvoState × RSt) := do
  let (s₁, r₁) ← Evolution.reproduction g s r
  let (s₂, r₂) ← Evolution.mutation g u rate s₁ r₁
  let s₃ ← Evolution.generate_fitness s₂
  let s₄ ← Evolution.check_progress s₃
  let s₅ ← Evolution.create_mating_pool s₄
  .ok ({ s₅ with generation := s₅.generation + 1 }, r₂)

/-- Model of `Evolution.__init__` (George.py lines 55-80): field setup, then
initial population, fitness, mating pool, and the initial progress check,
in that order.  No argument validation is performed. -/
def Evolution.init (g : RandS) (target : List Char) (populationsize : ℤ) (r : RSt) :
    Except PyErr (EvoState × RSt) := do
  let s₀ : EvoState :=
    { target := target, populationsize := populationsize, population := [],
      fitness := [], mating_pool := [], generation := 1, target_acquired := false,
      max_fitness := none, target_population := none, closest_target := none }
  let (s₁, r₁) ← Evolution.generate_initial_population g s₀ r
  let s₂ ← Evolution.generate_fitness s₁
  let s₃ ← Evolution.create_mating_pool s₂
  let s₄ ← Evolution.check_progress s₃
  .ok (s₄, r₁)

/-- Model of `Evolution.evolution_rounds` (George.py lines 199-226): run
`new_generation` up to `rounds` times, breaking after the first generation
whose progress check reports the target acquired.  The progress bar and
prints are presentation only. -/
def Evolution.evolution_rounds (g : RandS) (u : UnifS) (rate : ℚ) :
    Nat → EvoState → RSt → Except PyErr (EvoState × RSt)
  | 0, s, r => .ok (s, r)
  | n + 1, s, r => do
    let (s', r') ← Evolution.new_generation g u rate s r
    if s'.target_acquired then .ok (s', r')
    else Evolution.evolution_rounds g u rate n s' r'

deriving instance DecidableEq for Except

/-- Constant-zero integer stream, for concrete runs. -/
def gZero : RandS := fun _ => 0

/-- Integer stream enumerating `0, 1, 2, ...`, for concrete runs. -/
def gId : RandS := fun k => k

/-- Constant-zero uniform stream, for concrete runs. -/
def uZero : UnifS := fun _ => 0

/-- A state whose mating pool is empty (all fitness scores were zero). -/
def sPoolEmpty : EvoState :=
  { target := ['A', 'B'], populationsize := 2,
    population := [['C', 'C'], ['D', 'D']],
    fitness := [0, 0], mating_pool := [], generation := 1,
    target_acquired := false, max_fitness := some 0,
    target_population := none, closest_target := some ['C', 'C'] }

/-- A state whose mating pool holds copies of a single distinct value. -/
def sPoolUniform : EvoState :=
  { sPoolEmpty with mating_pool := [['C', 'C'], ['C', 'C']] }

/-- An already-acquired state whose mating pool still has two distinct
values, as produced by a generation that contained the target. -/
def sAcq : EvoState :=
  { target := ['A', 'B'], populationsize := 2,
    population := [['A', 'B'], ['A', 'A']],
    fitness := [1, mkRat 1 2],
    mating_pool := List.replicate 100 ['A', 'B'] ++ List.replicate 50 ['A', 'A'],
    generation := 1, target_acquired := true, max_fitness := some 1,
    target_population := some ['A', 'B'], closest_target := some ['A', 'B'] }

/-- Shape invariant: the population has exactly `populationsize` members,
and every member of the population and of the mating pool has the target's
length. -/
@[reducible] def ShapeInv (s : EvoState) : Prop :=
  s.population.length = s.populationsize.toNat ∧
  (∀ m ∈ s.population, m.length = s.target.length) ∧
  (∀ m ∈ s.mating_pool, m.length = s.target.length)

/-- Alphabet invariant: every character of every member of the population
and of the mating pool occurs in the target. -/
@[reducible] def CharInv (s : EvoState) : Prop :=
  (∀ m ∈ s.population, ∀ c ∈ m, c ∈ s.target) ∧
  (∀ m ∈ s.mating_pool, ∀ c ∈ m, c ∈ s.target)

/-- A state holding the target itself plus one non-target member, before
its fitness has been computed. -/
def sWithTarget : EvoState :=
  { target := ['A', 'B'], populationsize := 2,
    population := [['A', 'A'], ['A', 'B']],
    fitness := [], mating_pool := [], generation := 1,
    target_acquired := false, max_fitness := none,
    target_population := none, closest_target := none }

/-- State component of a concrete two-member construction run. -/
def sInitTwo : EvoState :=
  ((Evolution.init gId ['A', 'B'] 2 ⟨0, 0⟩).toOption.map Prod.fst).getD sPoolEmpty

/-- Stream-counter component of the same construction run. -/
def rInitTwo : RSt :=
  ((Evolution.init gId ['A', 'B'] 2 ⟨0, 0⟩).toOption.map Prod.snd).getD ⟨0, 0⟩

/-- State component of one concrete generation step from `sAcq`. -/
def sStepAcq : EvoState :=
  ((Evolution.new_generation gZero uZero 0 sAcq ⟨0, 0⟩).toOption.map Prod.fst).getD sPoolEmpty

/-- Stream-counter component of the same generation step. -/
def rStepAcq : RSt :=
  ((Evolution.new_generation gZero uZero 0 sAcq ⟨0, 0⟩).toOption.map Prod.snd).getD ⟨0, 0⟩

/-- Output of one concrete `reproStep` over a two-valued pool. -/
def outStep : (List Char × List Char) × RSt :=
  (reproStep gZero ['A'] [['A'], ['B']] ⟨0, 0⟩).toOption.getD ((['X'], ['X']), ⟨0, 0⟩)

/-! ### Plumbing lemmas -/

@[simp] theorem exBind_ok (a : α) (f : α → Except PyErr β) :
    (Except.ok a >>= f : Except PyErr β) = f a := rfl

@[simp] theorem exBind_error (e : PyErr) (f : α → Except PyErr β) :
    (Except.error e >>= f : Except PyErr β) = .error e := rfl

theorem getD_mem {l : List α} (n : Nat) {d : α} (hd : d ∈ l) : l.getD n d ∈ l := by
  rcases Nat.lt_or_ge n l.length with h | h
  · rw [List.getD_eq_getElem?_getD, List.getElem?_eq_getElem h]
    exact List.getElem_mem ..
  · rw [List.getD_eq_getElem?_getD, List.getElem?_eq_none h]
    exact hd

theorem getD_mem_of_lt {l : List α} {n : Nat} (d : α) (h : n < l.length) : l.getD n d ∈ l := by
  rw [List.getD_eq_getElem?_getD, List.getElem?_eq_getElem h]
  exact List.getElem_mem ..

theorem npChoice_ok_mem {g : RandS} {r r' : RSt} {l : List α} {x : α}
    (h : npChoice g r l = .ok (x, r')) : x ∈ l := by
  match l with
  | [] => simp [npChoice] at h
  | a :: rest =>
    simp only [npChoice, Except.ok.injEq, Prod.mk.injEq] at h
    exact h.1 ▸ getD_mem _ (List.mem_cons_self a rest)

theorem drawChars_length (g : RandS) (target : List Char) (k N : Nat) :
    (drawChars g target k N).length = N := by simp [drawChars]

theorem drawChars_mem {target : List Char} (hT : target ≠ []) (g : RandS) (k N : Nat) :
    ∀ c ∈ drawChars g target k N, c ∈ target := by
  intro c hc
  simp only [drawChars, List.mem_map] at hc
  obtain ⟨i, -, rfl⟩ := hc
  exact getD_mem_of_lt _ (Nat.mod_lt _ (List.length_pos.mpr hT))

theorem genPop_ok {g : RandS} {target : List Char} (hT : target ≠ []) :
    ∀ (n : Nat) (r : RSt), ∃ pop r', genPop g target n r = .ok (pop, r') ∧
      pop.length = n ∧ (∀ m ∈ pop, m.length = target.length) ∧
      (∀ m ∈ pop, ∀ c ∈ m, c ∈ target)
  | 0, r => ⟨[], r, rfl, rfl, by simp, by simp⟩
  | n + 1, r => by
    have hne : ¬ target.isEmpty := by simpa [List.isEmpty_iff] using hT
    obtain ⟨pop, r', hok, hlen, hml, hmc⟩ :=
      genPop_ok (g := g) hT n ⟨r.k + target.length, r.j⟩
    refine ⟨drawChars g target r.k target.length :: pop, r', ?_, by simp [hlen], ?_, ?_⟩
    · simp [genPop, generate_random_dna, hne, hok]
    · intro m hm
      rcases List.mem_cons.mp hm with rfl | hm
      · exact drawChars_length ..
      · exact hml m hm
    · intro m hm
      rcases List.mem_cons.mp hm with rfl | hm
      · exact drawChars_mem hT g r.k target.length
      · exact hmc m hm

theorem genPop_empty_target (g : RandS) (n : Nat) (r : RSt) :
    genPop g [] (n + 1) r = .error .emptySample := by
  simp [genPop, generate_random_dna]

/-! ### Fitness lemmas -/

theorem matchScore_le : ∀ (t m : List Char), matchScore t m ≤ t.length
  | [], _ => Nat.le_refl 0
  | _ :: _, [] => Nat.zero_le _
  | t :: ts, c :: cs => by
    have := matchScore_le ts cs
    simp only [matchScore, List.length_cons]
    split <;> omega

theorem matchScore_self : ∀ (t : List Char), matchScore t t = t.length
  | [] => rfl
  | t :: ts => by simp [matchScore, matchScore_self ts, Nat.add_comm]

theorem matchScore_eq_length_iff : ∀ {t m : List Char}, m.length = t.length →
    (matchScore t m = t.length ↔ m = t)
  | [], [], _ => by simp [matchScore]
  | [], _ :: _, h => by simp at h
  | _ :: _, [], h => by simp at h
  | t :: ts, c :: cs, h => by
    have hlen : cs.length = ts.length := by simpa using h
    have hle := matchScore_le ts cs
    have hiff := matchScore_eq_length_iff (t := ts) (m := cs) hlen
    constructor
    · intro he
      simp only [matchScore, List.length_cons] at he
      by_cases hc : c = t
      · have : matchScore ts cs = ts.length := by rw [if_pos hc] at he; omega
        rw [hc, hiff.mp this]
      · rw [if_neg hc] at he; omega
    · intro he
      cases he
      exact matchScore_self _

theorem matchScore_eq_count : ∀ {t m : List Char}, t.length ≤ m.length →
    matchScore t m =
      ((List.range t.length).filter fun i => m.getD i 'A' = t.getD i 'A').length
  | [], _, _ => by simp [matchScore]
  | t :: ts, [], h => by simp at h
  | t :: ts, c :: cs, h => by
    have h' : ts.length ≤ cs.length := by simpa using h
    simp only [matchScore, List.length_cons, List.range_succ_eq_map,
      List.filter_cons, List.getD_cons_zero, List.filter_map]
    have hcomp : ((fun i => decide ((c :: cs).getD i 'A' = (t :: ts).getD i 'A')) ∘ Nat.succ)
        = fun i => decide (cs.getD i 'A' = ts.getD i 'A') := by
      funext i; simp
    rw [hcomp, matchScore_eq_count h']
    by_cases hc : c = t <;> simp [hc, Nat.add_comm]

theorem mkRat_natCast_eq_div (s N : Nat) : mkRat (s : ℤ) N = (s : ℚ) / (N : ℚ) := by
  rw [Rat.mkRat_eq_divInt, Rat.divInt_eq_div]
  norm_num

theorem mkRat_nat_nonneg (s N : Nat) : 0 ≤ mkRat (s : ℤ) N := by
  rw [mkRat_natCast_eq_div]
  positivity

theorem mkRat_nat_le_one {s N : Nat} (h : s ≤ N) (hN : N ≠ 0) : mkRat (s : ℤ) N ≤ 1 := by
  rw [mkRat_natCast_eq_div, div_le_one (by positivity)]
  exact_mod_cast h

theorem mkRat_nat_eq_one_iff {s N : Nat} (hN : N ≠ 0) : mkRat (s : ℤ) N = 1 ↔ s = N := by
  rw [mkRat_natCast_eq_div, div_eq_one_iff_eq (by positivity : (N : ℚ) ≠ 0)]
  exact_mod_cast Iff.rfl

theorem fitOne_ok {t m : List Char} (hT : t ≠ []) (h : t.length ≤ m.length) :
    fitOne t m = .ok (mkRat (matchScore t m) t.length) := by
  rw [fitOne, if_neg (Nat.not_lt.mpr h), if_neg]
  simpa [← List.length_pos] using List.length_pos.mpr hT

theorem fitList_ok {t : List Char} (hT : t ≠ []) :
    ∀ {pop : List (List Char)}, (∀ m ∈ pop, t.length ≤ m.length) →
    ∃ fs, fitList t pop = .ok fs ∧
      List.Forall₂ (fun m q => q = mkRat (matchScore t m) t.length) pop fs
  | [], _ => ⟨[], rfl, List.Forall₂.nil⟩
  | m :: ms, hl => by
    obtain ⟨fs, hok, hall⟩ := fitList_ok hT (fun x hx => hl x (List.mem_cons_of_mem m hx))
    refine ⟨mkRat (matchScore t m) t.length :: fs, ?_, List.Forall₂.cons rfl hall⟩
    simp [fitList, fitOne_ok hT (hl m (List.mem_cons_self m ms)), hok]

/-! ### Maximum, first-index and mating-pool lemmas -/

theorem pyMax_left (a b : ℚ) : a ≤ pyMax a b := by
  rw [pyMax]; split <;> linarith

theorem pyMax_right (a b : ℚ) : b ≤ pyMax a b := by
  rw [pyMax]; split <;> linarith

theorem pyMax_cases (a b : ℚ) : pyMax a b = a ∨ pyMax a b = b := by
  rw [pyMax]; split
  · exact Or.inr rfl
  · exact Or.inl rfl

theorem foldl_pyMax_mem : ∀ (l : List ℚ) (a : ℚ), l.foldl pyMax a ∈ a :: l
  | [], a => by simp [List.foldl]
  | b :: l, a => by
    rw [List.foldl_cons]
    rcases List.mem_cons.mp (foldl_pyMax_mem l (pyMax a b)) with h | h
    · rcases pyMax_cases a b with hc | hc <;> rw [h, hc] <;> simp
    · simp [List.mem_cons_of_mem _ (List.mem_cons_of_mem _ h)]

theorem le_foldl_pyMax : ∀ (l : List ℚ) (a : ℚ), ∀ x ∈ a :: l, x ≤ l.foldl pyMax a
  | [], a, x, hx => by
    simp at hx
    simpa [List.foldl] using hx.le
  | b :: l, a, x, hx => by
    rw [List.foldl_cons]
    rcases List.mem_cons.mp hx with rfl | hx'
    · exact le_trans (pyMax_left x b) (le_foldl_pyMax l (pyMax x b) _ (List.mem_cons_self _ _))
    · rcases List.mem_cons.mp hx' with rfl | hx'' 
      · exact le_trans (pyMax_right a x) (le_foldl_pyMax l (pyMax a x) _ (List.mem_cons_self _ _))
      · exact le_foldl_pyMax l (pyMax a b) x (List.mem_cons_of_mem _ hx'')

theorem firstIdx_lt : ∀ {l : List ℚ} {x : ℚ}, x ∈ l → firstIdx x l < l.length
  | a :: rest, x, h => by
    rw [firstIdx]
    split
    · simp
    · next hne =>
      have hx : x ∈ rest := by
        rcases List.mem_cons.mp h with rfl | h'
        · exact absurd rfl hne
        · exact h'
      simpa using firstIdx_lt hx

theorem firstIdx_getElem? : ∀ {l : List ℚ} {x : ℚ}, x ∈ l →
    l[firstIdx x l]? = some x
  | a :: rest, x, h => by
    rw [firstIdx]
    split
    · next heq => simp [heq]
    · next hne =>
      have hx : x ∈ rest := by
        rcases List.mem_cons.mp h with rfl | h'
        · exact absurd rfl hne
        · exact h'
      simpa using firstIdx_getElem? hx

theorem qMul100_eq (q : ℚ) : qMul100 q = 100 * q := by
  rw [qMul100, Rat.divInt_eq_div]
  push_cast
  rw [mul_div_assoc, Rat.num_div_den]

theorem poolOf_eq : ∀ (pop : List (List Char)) (fs : List ℚ),
    pop.length ≤ fs.length →
    poolOf pop fs =
      .ok ((pop.zip fs).flatMap fun p => List.replicate (rintQ (qMul100 p.2)).toNat p.1)
  | [], _, _ => by simp [poolOf]
  | m :: ms, [], h => by simp at h
  | m :: ms, f :: fs, h => by
    have h' : ms.length ≤ fs.length := by simpa using h
    simp [poolOf, poolOf_eq ms fs h', List.zip_cons_cons]

theorem poolOf_ok_mem {pop : List (List Char)} {fs : List ℚ} {pool : List (List Char)}
    (h : poolOf pop fs = .ok pool) : ∀ m ∈ pool, m ∈ pop := by
  induction pop generalizing fs pool with
  | nil =>
    simp only [poolOf, Except.ok.injEq] at h
    simp [← h]
  | cons m ms ih =>
    match fs with
    | [] => simp [poolOf] at h
    | f :: fs =>
      rcases hrest : poolOf ms fs with e | rest
      · rw [poolOf, hrest] at h
        simp at h
      · rw [poolOf, hrest] at h
        simp only [exBind_ok, Except.ok.injEq] at h
        intro x hx
        rw [← h] at hx
        rcases List.mem_append.mp hx with hx' | hx'
        · rw [List.eq_of_mem_replicate hx']
          exact List.mem_cons_self ..
        · exact List.mem_cons_of_mem _ (ih hrest x hx')

/-! ### Reproduction lemmas -/

theorem mkBaby_length (t pA pB : List Char) : (mkBaby t pA pB).length = t.length := by
  simp [mkBaby]

theorem mkBaby_getElem? {t : List Char} {i : Nat} (pA pB : List Char) (hi : i < t.length) :
    (mkBaby t pA pB)[i]? =
      some (if pA.getD i 'A' = t.getD i 'A' then pA.getD i 'A' else pB.getD i 'A') := by
  simp [mkBaby, List.getElem?_range hi]

theorem mkBaby_chars {t pA pB : List Char} (hA : t.length ≤ pA.length)
    (hB : t.length ≤ pB.length) : ∀ c ∈ mkBaby t pA pB, c ∈ pA ∨ c ∈ pB := by
  intro c hc
  simp only [mkBaby, List.mem_map, List.mem_range] at hc
  obtain ⟨i, hi, rfl⟩ := hc
  by_cases h : pA.getD i 'A' = t.getD i 'A'
  · rw [if_pos h]
    exact Or.inl (getD_mem_of_lt _ (lt_of_lt_of_le hi hA))
  · rw [if_neg h]
    exact Or.inr (getD_mem_of_lt _ (lt_of_lt_of_le hi hB))

theorem reproStep_ok {g : RandS} {target : List Char} {pool : List (List Char)} {r : RSt}
    {out : (List Char × List Char) × RSt} (h : reproStep g target pool r = .ok out) :
    ∃ pA pB, pA ∈ pool ∧ pB ∈ pool ∧ pB ≠ pA ∧
      target.length ≤ pA.length ∧ target.length ≤ pB.length ∧
      out.1 = (mkBaby target pA pB, mkBaby target pB pA) := by
  unfold reproStep at h
  rcases hA : npChoice g r pool with e | ⟨pA, r₁⟩
  · simp only [hA, exBind_error] at h
    exact Except.noConfusion h
  · simp only [hA, exBind_ok] at h
    rcases hB : npChoice g r₁ (pool.filter fun m => m ≠ pA) with e | ⟨pB, r₂⟩
    · simp only [hB, exBind_error] at h
      exact Except.noConfusion h
    · simp only [hB, exBind_ok] at h
      by_cases hg : pA.length < target.length ∨ pB.length < target.length
      · rw [if_pos hg] at h; simp at h
      · rw [if_neg hg] at h
        push_neg at hg
        have hBmem := npChoice_ok_mem hB
        rw [List.mem_filter] at hBmem
        refine ⟨pA, pB, npChoice_ok_mem hA, hBmem.1, by simpa using hBmem.2,
          hg.1, hg.2, ?_⟩
        cases h
        rfl

theorem reproLoop_ok {g : RandS} {target : List Char} {pool : List (List Char)} :
    ∀ {n : Nat} {r : RSt} {pop : List (List Char)} {r' : RSt},
    reproLoop g target pool n r = .ok (pop, r') →
    pop.length = 2 * n ∧ (∀ m ∈ pop, m.length = target.length) ∧
      (∀ m ∈ pop, ∀ c ∈ m, ∃ q ∈ pool, c ∈ q)
  | 0, r, pop, r', h => by
    simp only [reproLoop, Except.ok.injEq, Prod.mk.injEq] at h
    obtain ⟨h1, -⟩ := h
    subst h1
    exact ⟨rfl, by simp, by simp⟩
  | n + 1, r, pop, r', h => by
    rw [reproLoop] at h
    rcases hs : reproStep g target pool r with e | ⟨⟨a, b⟩, r₁⟩
    · simp only [hs, exBind_error] at h
      exact Except.noConfusion h
    · simp only [hs, exBind_ok] at h
      rcases hl : reproLoop g target pool n r₁ with e | ⟨rest, r₂⟩
      · simp only [hl, exBind_error] at h
        exact Except.noConfusion h
      · simp only [hl, exBind_ok, Except.ok.injEq, Prod.mk.injEq] at h
        obtain ⟨h1, -⟩ := h
        subst h1
        obtain ⟨hlen, hml, hmc⟩ := reproLoop_ok hl
        obtain ⟨pA, pB, hpA, hpB, -, hlA, hlB, hout⟩ := reproStep_ok hs
        obtain ⟨ha, hb⟩ : a = mkBaby target pA pB ∧ b = mkBaby target pB pA := by
          have h1 := congrArg Prod.fst hout
          have h2 := congrArg Prod.snd hout
          simp only at h1 h2
          exact ⟨h1, h2⟩
        refine ⟨by simp [hlen]; omega, ?_, ?_⟩
        · intro m hm
          rcases List.mem_cons.mp hm with rfl | hm'
          · rw [ha]; exact mkBaby_length ..
          rcases List.mem_cons.mp hm' with rfl | hm''
          · rw [hb]; exact mkBaby_length ..
          · exact hml m hm''
        · intro m hm c hc
          rcases List.mem_cons.mp hm with rfl | hm'
          · rcases mkBaby_chars hlA hlB c (ha ▸ hc) with h' | h'
            · exact ⟨pA, hpA, h'⟩
            · exact ⟨pB, hpB, h'⟩
          rcases List.mem_cons.mp hm' with rfl | hm''
          · rcases mkBaby_chars hlB hlA c (hb ▸ hc) with h' | h'
            · exact ⟨pB, hpB, h'⟩
            · exact ⟨pA, hpA, h'⟩
          · exact hmc m hm'' c hc

theorem reproLoop_ok_of_nonempty {g : RandS} {target : List Char}
    {pool : List (List Char)} (hpool : ∀ m ∈ pool, m.length = target.length)
    (hdist : ∃ x ∈ pool, ∃ y ∈ pool, x ≠ y) :
    ∀ (n : Nat) (r : RSt), ∃ pop r', reproLoop g target pool n r = .ok (pop, r')
  | 0, r => ⟨[], r, rfl⟩
  | n + 1, r => by
    obtain ⟨x, hx, y, hy, hxy⟩ := hdist
    rcases hA : npChoice g r pool with e | ⟨pA, r₁⟩
    · rcases pool with - | ⟨a, rest⟩
      · simp at hx
      · simp [npChoice] at hA
    · have hother : (pool.filter fun m => m ≠ pA) ≠ [] := by
        have hne : x ≠ pA ∨ y ≠ pA := by
          by_contra hc
          push_neg at hc
          exact hxy (hc.1.trans hc.2.symm)
        rcases hne with hne | hne
        · exact List.ne_nil_of_mem (List.mem_filter.mpr ⟨hx, by simpa using hne⟩)
        · exact List.ne_nil_of_mem (List.mem_filter.mpr ⟨hy, by simpa using hne⟩)
      rcases hB : npChoice g r₁ (pool.filter fun m => m ≠ pA) with e | ⟨pB, r₂⟩
      · rcases hof : pool.filter fun m => m ≠ pA with - | ⟨b, brest⟩
        · exact absurd hof hother
        · rw [hof] at hB; simp [npChoice] at hB
      · obtain ⟨rest, r₃, hrest⟩ :=
          reproLoop_ok_of_nonempty (g := g) hpool ⟨x, hx, y, hy, hxy⟩ n r₂
        have hif : ¬ (pA.length < target.length ∨ pB.length < target.length) := by
          have h1 : ¬ pA.length < target.length :=
            Nat.not_lt.mpr (le_of_eq (hpool pA (npChoice_ok_mem hA)).symm)
          have h2 : ¬ pB.length < target.length := by
            have hm := npChoice_ok_mem hB
            rw [List.mem_filter] at hm
            exact Nat.not_lt.mpr (le_of_eq (hpool pB hm.1).symm)
          tauto
        have hstep : reproStep g target pool r =
            .ok ((mkBaby target pA pB, mkBaby target pB pA), r₂) := by
          unfold reproStep
          simp only [hA, exBind_ok, hB, exBind_ok]
          rw [if_neg hif]
        refine ⟨mkBaby target pA pB :: mkBaby target pB pA :: rest, r₃, ?_⟩
        rw [reproLoop]
        simp only [hstep, exBind_ok, hrest]

/-! ### Mutation lemmas -/

theorem mutateChar_ok {g : RandS} {u : UnifS} {rate : ℚ} {target : List Char}
    {c : Char} {r : RSt} {c' : Char} {r' : RSt}
    (h : mutateChar g u rate target c r = .ok (c', r')) : c' = c ∨ c' ∈ target := by
  unfold mutateChar at h
  split at h
  · exact Except.noConfusion h
  · split at h
    · split at h
      · exact Except.noConfusion h
      · next hne =>
        obtain ⟨h1, -⟩ : target.getD (g r.k % target.length) 'A' = c' ∧ _ := by
          simpa using h
        refine Or.inr (h1 ▸ getD_mem_of_lt _ ?_)
        exact Nat.mod_lt _ (List.length_pos.mpr (by simpa [List.isEmpty_iff] using hne))
    · obtain ⟨h1, -⟩ : c = c' ∧ _ := by simpa using h
      exact Or.inl h1.symm

theorem mutateDNA_ok {g : RandS} {u : UnifS} {rate : ℚ} {target : List Char} :
    ∀ {cs : List Char} {r : RSt} {cs' : List Char} {r' : RSt},
    mutateDNA g u rate target cs r = .ok (cs', r') →
    cs'.length = cs.length ∧ ∀ x ∈ cs', x ∈ cs ∨ x ∈ target
  | [], r, cs', r', h => by
    obtain ⟨h1, -⟩ : [] = cs' ∧ _ := by simpa [mutateDNA] using h
    subst h1
    exact ⟨rfl, by simp⟩
  | c :: cs, r, cs', r', h => by
    rw [mutateDNA] at h
    rcases hc : mutateChar g u rate target c r with e | ⟨c₁, r₁⟩
    · simp only [hc, exBind_error] at h
      exact Except.noConfusion h
    · simp only [hc, exBind_ok] at h
      rcases hd : mutateDNA g u rate target cs r₁ with e | ⟨rest, r₂⟩
      · simp only [hd, exBind_error] at h
        exact Except.noConfusion h
      · simp only [hd, exBind_ok, Except.ok.injEq, Prod.mk.injEq] at h
        obtain ⟨h1, -⟩ := h
        subst h1
        obtain ⟨hlen, hmem⟩ := mutateDNA_ok hd
        refine ⟨by simp [hlen], ?_⟩
        intro x hx
        rcases List.mem_cons.mp hx with rfl | hx'
        · rcases mutateChar_ok hc with h' | h'
          · exact Or.inl (h' ▸ List.mem_cons_self ..)
          · exact Or.inr h'
        · rcases hmem x hx' with h' | h'
          · exact Or.inl (List.mem_cons_of_mem _ h')
          · exact Or.inr h'

theorem mutatePop_ok {g : RandS} {u : UnifS} {rate : ℚ} {target : List Char} :
    ∀ {pop : List (List Char)} {r : RSt} {pop' : List (List Char)} {r' : RSt},
    mutatePop g u rate target pop r = .ok (pop', r') →
    pop'.length = pop.length ∧
      ∀ m' ∈ pop', ∃ m ∈ pop, m'.length = m.length ∧ ∀ x ∈ m', x ∈ m ∨ x ∈ target
  | [], r, pop', r', h => by
    obtain ⟨h1, -⟩ : [] = pop' ∧ _ := by simpa [mutatePop] using h
    subst h1
    exact ⟨rfl, by simp⟩
  | m :: ms, r, pop', r', h => by
    rw [mutatePop] at h
    rcases hm : mutateDNA g u rate target m r with e | ⟨m₁, r₁⟩
    · simp only [hm, exBind_error] at h
      exact Except.noConfusion h
    · simp only [hm, exBind_ok] at h
      rcases hp : mutatePop g u rate target ms r₁ with e | ⟨rest, r₂⟩
      · simp only [hp, exBind_error] at h
        exact Except.noConfusion h
      · simp only [hp, exBind_ok, Except.ok.injEq, Prod.mk.injEq] at h
        obtain ⟨h1, -⟩ := h
        subst h1
        obtain ⟨hlen, hmem⟩ := mutatePop_ok hp
        obtain ⟨hlen1, hmem1⟩ := mutateDNA_ok hm
        refine ⟨by simp [hlen], ?_⟩
        intro m' hm'
        rcases List.mem_cons.mp hm' with rfl | hm''
        · exact ⟨m, List.mem_cons_self .., hlen1, hmem1⟩
        · obtain ⟨m₀, hm₀, hl₀, hc₀⟩ := hmem m' hm''
          exact ⟨m₀, List.mem_cons_of_mem _ hm₀, hl₀, hc₀⟩

theorem mutateChar_zero {g : RandS} {u : UnifS} (hu : ∀ j, 0 ≤ u j)
    (target : List Char) (c : Char) (r : RSt) :
    mutateChar g u 0 target c r = .ok (c, ⟨r.k, r.j + 1⟩) := by
  rw [mutateChar, if_neg, if_neg (not_lt.mpr (hu r.j))]
  rintro (h | h)
  · exact absurd h (lt_irrefl 0)
  · exact absurd h (by norm_num)

theorem mutateDNA_zero {g : RandS} {u : UnifS} (hu : ∀ j, 0 ≤ u j) (target : List Char) :
    ∀ (cs : List Char) (r : RSt),
    mutateDNA g u 0 target cs r = .ok (cs, ⟨r.k, r.j + cs.length⟩)
  | [], r => rfl
  | c :: cs, r => by
    rw [mutateDNA]
    have harith : r.j + 1 + cs.length = r.j + (cs.length + 1) := by omega
    simp only [mutateChar_zero hu, exBind_ok, mutateDNA_zero hu target cs, exBind_ok,
      List.length_cons, harith]

theorem mutatePop_zero {g : RandS} {u : UnifS} (hu : ∀ j, 0 ≤ u j) (target : List Char) :
    ∀ (pop : List (List Char)) (r : RSt),
    mutatePop g u 0 target pop r = .ok (pop, ⟨r.k, r.j + (pop.map List.length).sum⟩)
  | [], r => rfl
  | m :: ms, r => by
    rw [mutatePop]
    have harith : r.j + m.length + (ms.map List.length).sum
        = r.j + (m.length + (ms.map List.length).sum) := by omega
    simp only [mutateDNA_zero hu, exBind_ok, mutatePop_zero hu target ms, exBind_ok,
      List.map_cons, List.sum_cons, harith]

/-! ### State-operation decompositions -/

theorem reproduction_ok {g : RandS} {s : EvoState} {r : RSt} {s₁ : EvoState} {r₁ : RSt}
    (h : Evolution.reproduction g s r = .ok (s₁, r₁)) :
    ∃ pop, reproLoop g s.target s.mating_pool (s.populationsize.toNat / 2) r = .ok (pop, r₁) ∧
      s₁ = { s with population := pop } := by
  unfold Evolution.reproduction at h
  rcases hl : reproLoop g s.target s.mating_pool (s.populationsize.toNat / 2) r
      with e | ⟨pop, r'⟩
  · simp only [hl, exBind_error] at h
    exact Except.noConfusion h
  · simp only [hl, exBind_ok, Except.ok.injEq, Prod.mk.injEq] at h
    exact ⟨pop, by rw [h.2], h.1.symm⟩

theorem mutation_ok {g : RandS} {u : UnifS} {rate : ℚ} {s : EvoState} {r : RSt}
    {s₂ : EvoState} {r₂ : RSt} (h : Evolution.mutation g u rate s r = .ok (s₂, r₂)) :
    ∃ pop, mutatePop g u rate s.target s.population r = .ok (pop, r₂) ∧
      s₂ = { s with population := pop } := by
  unfold Evolution.mutation at h
  rcases hl : mutatePop g u rate s.target s.population r with e | ⟨pop, r'⟩
  · simp only [hl, exBind_error] at h
    exact Except.noConfusion h
  · simp only [hl, exBind_ok, Except.ok.injEq, Prod.mk.injEq] at h
    exact ⟨pop, by rw [h.2], h.1.symm⟩

theorem generate_fitness_ok {s : EvoState} {s₃ : EvoState}
    (h : Evolution.generate_fitness s = .ok s₃) :
    ∃ fs, fitList s.target s.population = .ok fs ∧ s₃ = { s with fitness := fs } := by
  unfold Evolution.generate_fitness at h
  rcases hl : fitList s.target s.population with e | fs
  · simp only [hl, exBind_error] at h
    exact Except.noConfusion h
  · simp only [hl, exBind_ok, Except.ok.injEq] at h
    exact ⟨fs, rfl, h.symm⟩

theorem create_mating_pool_ok {s : EvoState} {s' : EvoState}
    (h : Evolution.create_mating_pool s = .ok s') :
    ∃ pool, poolOf s.population s.fitness = .ok pool ∧
      s' = { s with mating_pool := pool } := by
  unfold Evolution.create_mating_pool at h
  rcases hl : poolOf s.population s.fitness with e | pool
  · simp only [hl, exBind_error] at h
    exact Except.noConfusion h
  · simp only [hl, exBind_ok, Except.ok.injEq] at h
    exact ⟨pool, rfl, h.symm⟩

theorem check_progress_ok {s : EvoState} {s' : EvoState}
    (h : Evolution.check_progress s = .ok s') :
    ∃ m c, listMaxQ s.fitness = .ok m ∧
      s.population.get? (firstIdx m s.fitness) = some c ∧
      ((m = 1 ∧ s' = { s with max_fitness := some m, closest_target := some c,
                              target_acquired := true, target_population := some c }) ∨
       (m ≠ 1 ∧ s' = { s with max_fitness := some m, closest_target := some c })) := by
  unfold Evolution.check_progress at h
  rcases hm : listMaxQ s.fitness with e | m
  · simp only [hm, exBind_error] at h
    exact Except.noConfusion h
  · simp only [hm, exBind_ok] at h
    rcases hc : s.population.get? (firstIdx m s.fitness) with - | c
    · simp only [hc] at h
      exact Except.noConfusion h
    · simp only [hc] at h
      refine ⟨m, c, rfl, hc, ?_⟩
      by_cases h1 : m = 1
      · rw [if_pos h1] at h
        exact Or.inl ⟨h1, (Except.ok.inj h).symm⟩
      · rw [if_neg h1] at h
        exact Or.inr ⟨h1, (Except.ok.inj h).symm⟩

theorem new_generation_ok {g : RandS} {u : UnifS} {rate : ℚ} {s : EvoState} {r : RSt}
    {s' : EvoState} {r' : RSt}
    (h : Evolution.new_generation g u rate s r = .ok (s', r')) :
    ∃ s₁ r₁ s₂ r₂ s₃ s₄ s₅,
      Evolution.reproduction g s r = .ok (s₁, r₁) ∧
      Evolution.mutation g u rate s₁ r₁ = .ok (s₂, r₂) ∧
      Evolution.generate_fitness s₂ = .ok s₃ ∧
      Evolution.check_progress s₃ = .ok s₄ ∧
      Evolution.create_mating_pool s₄ = .ok s₅ ∧
      s' = { s₅ with generation := s₅.generation + 1 } ∧ r' = r₂ := by
  unfold Evolution.new_generation at h
  rcases h1 : Evolution.reproduction g s r with e | ⟨s₁, r₁⟩
  · simp only [h1, exBind_error] at h
    exact Except.noConfusion h
  · simp only [h1, exBind_ok] at h
    rcases h2 : Evolution.mutation g u rate s₁ r₁ with e | ⟨s₂, r₂⟩
    · simp only [h2, exBind_error] at h
      exact Except.noConfusion h
    · simp only [h2, exBind_ok] at h
      rcases h3 : Evolution.generate_fitness s₂ with e | s₃
      · simp only [h3, exBind_error] at h
        exact Except.noConfusion h
      · simp only [h3, exBind_ok] at h
        rcases h4 : Evolution.check_progress s₃ with e | s₄
        · simp only [h4, exBind_error] at h
          exact Except.noConfusion h
        · simp only [h4, exBind_ok] at h
          rcases h5 : Evolution.create_mating_pool s₄ with e | s₅
          · simp only [h5, exBind_error] at h
            exact Except.noConfusion h
          · simp only [h5, exBind_ok, Except.ok.injEq, Prod.mk.injEq] at h
            refine ⟨s₁, r₁, s₂, r₂, s₃, s₄, s₅, rfl, h2, h3, h4, h5, ?_, ?_⟩
            · exact h.1.symm
            · exact h.2.symm

theorem init_decomp {g : RandS} {target : List Char} {p : ℤ} {r : RSt}
    {s : EvoState} {r' : RSt} (h : Evolution.init g target p r = .ok (s, r')) :
    ∃ pop fs pool,
      genPop g target p.toNat r = .ok (pop, r') ∧
      fitList target pop = .ok fs ∧
      poolOf pop fs = .ok pool ∧
      Evolution.check_progress
        { target := target, populationsize := p, population := pop, fitness := fs,
          mating_pool := pool, generation := 1, target_acquired := false,
          max_fitness := none, target_population := none, closest_target := none } = .ok s := by
  unfold Evolution.init Evolution.generate_initial_population at h
  rcases h1 : genPop g target p.toNat r with e | ⟨pop, r₁⟩
  · simp only [h1, exBind_error] at h
    exact Except.noConfusion h
  · simp only [h1, exBind_ok] at h
    rcases h2 : Evolution.generate_fitness
        { target := target, populationsize := p, population := pop, fitness := [],
          mating_pool := [], generation := 1, target_acquired := false,
          max_fitness := none, target_population := none, closest_target := none }
        with e | s₂
    · rw [h2] at h
      exact Except.noConfusion h
    · rw [h2] at h
      rw [exBind_ok] at h
      obtain ⟨fs, hfs, hs₂⟩ := generate_fitness_ok h2
      subst hs₂
      rcases h3 : Evolution.create_mating_pool
          { target := target, populationsize := p, population := pop, fitness := fs,
            mating_pool := [], generation := 1, target_acquired := false,
            max_fitness := none, target_population := none, closest_target := none }
          with e | s₃
      · rw [h3] at h
        exact Except.noConfusion h
      · rw [h3] at h
        rw [exBind_ok] at h
        obtain ⟨pool, hpool, hs₃⟩ := create_mating_pool_ok h3
        subst hs₃
        rcases h4 : Evolution.check_progress
            { target := target, populationsize := p, population := pop, fitness := fs,
              mating_pool := pool, generation := 1, target_acquired := false,
              max_fitness := none, target_population := none, closest_target := none }
            with e | s₄
        · rw [h4] at h
          exact Except.noConfusion h
        · rw [h4] at h
          rw [exBind_ok] at h
          obtain ⟨hs, hr⟩ := Prod.mk.inj (Except.ok.inj h)
          exact ⟨pop, fs, pool, by rw [hr], hfs, hpool, hs ▸ h4⟩

/-! ### Construction success and failure -/

theorem init_nonpos (g : RandS) (t : List Char) {p : ℤ} (hp : p.toNat = 0) (r : RSt) :
    Evolution.init g t p r = .error .maxOfEmpty := by
  unfold Evolution.init Evolution.generate_initial_population
  simp [hp, genPop, Evolution.generate_fitness, fitList, Evolution.create_mating_pool, poolOf,
    Evolution.check_progress, listMaxQ]

theorem init_empty_target_pos (g : RandS) {p : ℤ} {n : Nat} (hp : p.toNat = n + 1) (r : RSt) :
    Evolution.init g [] p r = .error .emptySample := by
  unfold Evolution.init Evolution.generate_initial_population
  simp [hp, genPop, generate_random_dna]

theorem check_progress_isOk {s : EvoState} (hne : s.fitness ≠ [])
    (hlen : s.fitness.length ≤ s.population.length) :
    ∃ s', Evolution.check_progress s = .ok s' := by
  rcases hfs : s.fitness with - | ⟨a, rest⟩
  · exact absurd hfs hne
  · have hmax : listMaxQ s.fitness = .ok (rest.foldl pyMax a) := by rw [hfs]; rfl
    have hmem : rest.foldl pyMax a ∈ s.fitness := by
      rw [hfs]; exact foldl_pyMax_mem rest a
    have hidx : firstIdx (rest.foldl pyMax a) s.fitness < s.population.length :=
      lt_of_lt_of_le (by simpa [hfs] using firstIdx_lt (hfs ▸ hmem)) hlen
    have hget : s.population.get? (firstIdx (rest.foldl pyMax a) s.fitness) =
        some (s.population.get ⟨firstIdx (rest.foldl pyMax a) s.fitness, hidx⟩) :=
      List.get?_eq_get hidx
    unfold Evolution.check_progress
    simp only [hmax, exBind_ok, hget]
    by_cases h1 : rest.foldl pyMax a = 1
    · rw [if_pos h1]; exact ⟨_, rfl⟩
    · rw [if_neg h1]; exact ⟨_, rfl⟩

/-- C2 counterexample: the claim says construction fails with
`InvalidPopulationSize` for an odd `populationSize`, but
`Evolution('AB', 3)` constructs successfully: `__init__` performs no
validation at all. -/
theorem init_accepts_odd_size :
    (Evolution.init gZero ['A', 'B'] 3 ⟨0, 0⟩).isOk = true ∧
    (Evolution.init gZero ['A', 'B'] 1 ⟨0, 0⟩).isOk = true := by
  constructor <;> decide

/-- C2 (amended): construction performs no validation; it succeeds exactly
when the target is non-empty and `populationsize ≥ 1`.  An empty target
with a positive size dies with numpy's empty-sample `ValueError` (not an
`InvalidTarget` error), a non-positive size dies with `max([])`'s
`ValueError` at the initial progress check (not an `InvalidPopulationSize`
error), and odd sizes (and size 1) are accepted without any error. -/
theorem init_ok_iff (g : RandS) (target : List Char) (p : ℤ) (r : RSt) :
    (∃ out, Evolution.init g target p r = .ok out) ↔ target ≠ [] ∧ 1 ≤ p := by
  constructor
  · rintro ⟨out, hout⟩
    by_cases hp : p.toNat = 0
    · rw [init_nonpos g target hp r] at hout
      exact Except.noConfusion hout
    · obtain ⟨n, hn⟩ := Nat.exists_eq_succ_of_ne_zero hp
      refine ⟨?_, by omega⟩
      rintro rfl
      rw [init_empty_target_pos g hn r] at hout
      exact Except.noConfusion hout
  · rintro ⟨hT, hp⟩
    obtain ⟨pop, r', hgen, hplen, hml, -⟩ := genPop_ok (g := g) hT p.toNat r
    have hml' : ∀ m ∈ pop, target.length ≤ m.length := fun m hm => le_of_eq (hml m hm).symm
    obtain ⟨fs, hfs, hall⟩ := fitList_ok hT hml'
    have hleq : pop.length = fs.length := List.Forall₂.length_eq hall
    have hpool := poolOf_eq pop fs (le_of_eq hleq)
    have hfsne : fs ≠ [] := by
      intro h0
      rw [h0, hplen] at hleq
      simp only [List.length_nil] at hleq
      omega
    obtain ⟨s', hcheck⟩ := check_progress_isOk
      (s := { target := target, populationsize := p, population := pop, fitness := fs,
              mating_pool := (pop.zip fs).flatMap
                (fun q => List.replicate (rintQ (qMul100 q.2)).toNat q.1),
              generation := 1, target_acquired := false, max_fitness := none,
              target_population := none, closest_target := none })
      hfsne (le_of_eq hleq.symm)
    refine ⟨(s', r'), ?_⟩
    unfold Evolution.init Evolution.generate_initial_population Evolution.generate_fitness
      Evolution.create_mating_pool
    simp only [hgen, exBind_ok, hfs, hpool, hcheck]

/-- C3: the claim demands a fallback for degenerate mating pools, but
`reproduction` has none: with a non-empty iteration count, an empty pool
makes the first `np.random.choice` raise, and a pool holding copies of a
single value makes the `otherParents` choice raise — both uncaught. -/
theorem reproduction_degenerate_raises :
    Evolution.reproduction gZero sPoolEmpty ⟨0, 0⟩ = .error .emptySample ∧
    Evolution.reproduction gZero sPoolUniform ⟨0, 0⟩ = .error .emptySample := by
  exact ⟨rfl, by decide⟩

/-- C9: applying `mutation` with rate `0` never draws `'mutate'` (a uniform
sample in `[0,1)` is never `< 0`), so the population — and the whole state —
is returned unchanged; only the uniform stream advances, one sample per
character. -/
theorem mutation_zero_identity (g : RandS) (u : UnifS) (s : EvoState) (r : RSt)
    (hu : ∀ j, 0 ≤ u j) :
    Evolution.mutation g u 0 s r =
      .ok (s, ⟨r.k, r.j + (s.population.map List.length).sum⟩) := by
  unfold Evolution.mutation
  simp only [mutatePop_zero hu, exBind_ok]

/-- C9 witness: the identity at a concrete state and concrete streams. -/
theorem mutation_zero_identity_witness :
    Evolution.mutation gZero uZero 0 sPoolEmpty ⟨0, 0⟩ = .ok (sPoolEmpty, ⟨0, 4⟩) :=
  mutation_zero_identity gZero uZero sPoolEmpty ⟨0, 0⟩ fun _ => le_refl 0

/-- C6: the mating pool is exactly, in population order, `round(f * 100)`
consecutive copies of each individual with fitness `f`, where the rounding
is `np.rint`'s round-half-to-even (`rintQ`): fitness `0` contributes `0`
entries, fitness `1.0` contributes `100`, and the pinned values show halves
rounding to the nearest even integer. -/
theorem create_mating_pool_spec (s : EvoState)
    (hlen : s.population.length ≤ s.fitness.length) :
    (∃ s', Evolution.create_mating_pool s = .ok s' ∧
        s'.mating_pool = (s.population.zip s.fitness).flatMap
          fun q => List.replicate (rintQ (q.2 * 100)).toNat q.1) ∧
    (rintQ ((0 : ℚ) * 100)).toNat = 0 ∧ (rintQ ((1 : ℚ) * 100)).toNat = 100 ∧
    rintQ (mkRat 1 2) = 0 ∧ rintQ (mkRat 3 2) = 2 ∧ rintQ (mkRat 5 2) = 2 ∧
    rintQ (mkRat 7 10) = 1 := by
  refine ⟨?_, by rw [zero_mul]; decide, by rw [one_mul]; decide,
    by decide, by decide, by decide, by decide⟩
  have hpool := poolOf_eq s.population s.fitness hlen
  have hfun : (fun p : List Char × ℚ => List.replicate (rintQ (qMul100 p.2)).toNat p.1)
      = fun q : List Char × ℚ => List.replicate (rintQ (q.2 * 100)).toNat q.1 := by
    funext q
    rw [qMul100_eq, mul_comm]
  rw [hfun] at hpool
  unfold Evolution.create_mating_pool
  rw [hpool]
  exact ⟨_, rfl, rfl⟩

/-- C6 witness: the pool law applied at the concrete state `sAcq`. -/
theorem create_mating_pool_spec_witness :
    (∃ s', Evolution.create_mating_pool sAcq = .ok s' ∧
        s'.mating_pool = (sAcq.population.zip sAcq.fitness).flatMap
          fun q => List.replicate (rintQ (q.2 * 100)).toNat q.1) ∧
    (rintQ ((0 : ℚ) * 100)).toNat = 0 ∧ (rintQ ((1 : ℚ) * 100)).toNat = 100 ∧
    rintQ (mkRat 1 2) = 0 ∧ rintQ (mkRat 3 2) = 2 ∧ rintQ (mkRat 5 2) = 2 ∧
    rintQ (mkRat 7 10) = 1 :=
  create_mating_pool_spec sAcq (by decide)

/-- C5: for a population of members of the target's length `N > 0`,
`generate_fitness` succeeds and assigns member `m` the score
`(number of positions i with m[i] = target[i]) / N`; every score lies in
`[0, 1]` and equals `1` exactly when the member is the target.
Determinism is inherent: `generate_fitness` is a pure function of the
state. -/
theorem generate_fitness_spec (s : EvoState)
    (hT : s.target ≠ [])
    (hlen : ∀ m ∈ s.population, m.length = s.target.length) :
    ∃ s', Evolution.generate_fitness s = .ok s' ∧
      s'.fitness.length = s.population.length ∧
      ∀ i m f, s.population.get? i = some m → s'.fitness.get? i = some f →
        f = (((List.range s.target.length).filter
              fun j => m.getD j 'A' = s.target.getD j 'A').length : ℚ) / s.target.length ∧
        0 ≤ f ∧ f ≤ 1 ∧ (f = 1 ↔ m = s.target) := by
  have hN : s.target.length ≠ 0 := by
    simpa [← List.length_pos] using List.length_pos.mpr hT
  obtain ⟨fs, hfs, hall⟩ :=
    fitList_ok hT (fun m hm => le_of_eq (hlen m hm).symm)
  have hlens := List.Forall₂.length_eq hall
  obtain ⟨-, hget⟩ := List.forall₂_iff_get.mp hall
  refine ⟨{ s with fitness := fs }, ?_, hlens.symm, ?_⟩
  · unfold Evolution.generate_fitness
    rw [hfs, exBind_ok]
  · intro i m f hm hf
    simp only at hf
    have hi : i < s.population.length := by
      by_contra hc
      rw [List.get?_eq_none.mpr (Nat.le_of_not_lt hc)] at hm
      exact Option.noConfusion hm
    have hi' : i < fs.length := hlens ▸ hi
    have hmv : s.population.get ⟨i, hi⟩ = m := by
      rw [List.get?_eq_get hi] at hm
      exact Option.some.inj hm
    have hfv : fs.get ⟨i, hi'⟩ = f := by
      rw [List.get?_eq_get hi'] at hf
      exact Option.some.inj hf
    have hrel := hget i hi hi'
    rw [hmv, hfv] at hrel
    have hmmem : m ∈ s.population := hmv ▸ List.get_mem s.population i hi
    have hmlen : m.length = s.target.length := hlen m hmmem
    have hcount : matchScore s.target m =
        ((List.range s.target.length).filter
          fun j => m.getD j 'A' = s.target.getD j 'A').length :=
      matchScore_eq_count (le_of_eq hmlen.symm)
    refine ⟨?_, ?_, ?_, ?_⟩
    · rw [hrel, mkRat_natCast_eq_div, hcount]
    · rw [hrel]; exact mkRat_nat_nonneg ..
    · rw [hrel]; exact mkRat_nat_le_one (matchScore_le ..) hN
    · rw [hrel, mkRat_nat_eq_one_iff hN]
      constructor
      · intro he
        exact (matchScore_eq_length_iff hmlen).mp he
      · rintro rfl
        exact matchScore_self _

/-- C5 witness: the fitness law applied at a concrete state holding the
target and one non-target member. -/
theorem generate_fitness_spec_witness :
    ∃ s', Evolution.generate_fitness sWithTarget = .ok s' ∧
      s'.fitness.length = sWithTarget.population.length ∧
      ∀ i m f, sWithTarget.population.get? i = some m → s'.fitness.get? i = some f →
        f = (((List.range sWithTarget.target.length).filter
              fun j => m.getD j 'A' = sWithTarget.target.getD j 'A').length : ℚ) /
            sWithTarget.target.length ∧
        0 ≤ f ∧ f ≤ 1 ∧ (f = 1 ↔ m = sWithTarget.target) :=
  generate_fitness_spec sWithTarget (by decide) (by decide)

/-- C1: if some member of the population equals the target (all members
having the target's length, target non-empty), then scoring followed by the
same generation's `check_progress` reports `max_fitness = 1`, sets
`target_acquired`, and records that matching sequence — the member at the
first index achieving the maximal fitness — as both `target_population`
and `closest_target`. -/
theorem check_progress_acquires (s : EvoState)
    (hT : s.target ≠ [])
    (hlen : ∀ m ∈ s.population, m.length = s.target.length)
    (hmem : s.target ∈ s.population) :
    ∃ s₁ s₂, Evolution.generate_fitness s = .ok s₁ ∧
      Evolution.check_progress s₁ = .ok s₂ ∧
      s₂.target_acquired = true ∧
      s₂.target_population = some s.target ∧
      s₂.closest_target = some s.target ∧
      s₂.max_fitness = some 1 := by
  have hN : s.target.length ≠ 0 := by
    simpa [← List.length_pos] using List.length_pos.mpr hT
  obtain ⟨fs, hfs, hall⟩ :=
    fitList_ok hT (fun m hm => le_of_eq (hlen m hm).symm)
  have hlens := List.Forall₂.length_eq hall
  obtain ⟨-, hget⟩ := List.forall₂_iff_get.mp hall
  have hle1 : ∀ q ∈ fs, q ≤ 1 := by
    intro q hq
    obtain ⟨⟨i, hi⟩, hqi⟩ := List.mem_iff_get.mp hq
    have hrel := hget i (hlens ▸ hi) hi
    rw [hqi] at hrel
    rw [hrel]
    exact mkRat_nat_le_one (matchScore_le ..) hN
  have h1mem : (1 : ℚ) ∈ fs := by
    obtain ⟨⟨i, hi⟩, hti⟩ := List.mem_iff_get.mp hmem
    have hrel := hget i hi (hlens ▸ hi)
    rw [hti] at hrel
    rw [matchScore_self, (mkRat_nat_eq_one_iff hN).mpr rfl] at hrel
    exact hrel ▸ List.get_mem fs i (hlens ▸ hi)
  rcases hfs' : fs with - | ⟨a, rest⟩
  · rw [hfs'] at h1mem; simp at h1mem
  · subst hfs'
    have hmax1 : rest.foldl pyMax a = 1 := by
      have hle : rest.foldl pyMax a ≤ 1 := hle1 _ (foldl_pyMax_mem rest a)
      have hub : (1 : ℚ) ≤ rest.foldl pyMax a := le_foldl_pyMax rest a 1 h1mem
      linarith
    have hmaxq : listMaxQ (a :: rest) = .ok 1 := by
      rw [listMaxQ, hmax1]
    have hidxlt : firstIdx 1 (a :: rest) < (a :: rest).length := firstIdx_lt h1mem
    have hidxlt' : firstIdx 1 (a :: rest) < s.population.length := by
      rw [hlens]; exact hidxlt
    have hfsidx : (a :: rest).get ⟨firstIdx 1 (a :: rest), hidxlt⟩ = 1 := by
      have h1 := firstIdx_getElem? h1mem
      rw [← List.get?_eq_getElem?, List.get?_eq_get hidxlt] at h1
      exact Option.some.inj h1
    have hc : s.population.get ⟨firstIdx 1 (a :: rest), hidxlt'⟩ = s.target := by
      have hrel := hget (firstIdx 1 (a :: rest)) hidxlt' hidxlt
      rw [hfsidx] at hrel
      have hms : matchScore s.target
          (s.population.get ⟨firstIdx 1 (a :: rest), hidxlt'⟩) = s.target.length :=
        (mkRat_nat_eq_one_iff hN).mp hrel.symm
      exact (matchScore_eq_length_iff (hlen _ (List.get_mem ..))).mp hms
    have hpopget : s.population.get? (firstIdx 1 (a :: rest)) = some s.target := by
      rw [List.get?_eq_get hidxlt', hc]
    have hgf : Evolution.generate_fitness s = .ok { s with fitness := a :: rest } := by
      unfold Evolution.generate_fitness
      rw [hfs, exBind_ok]
    have hcheck : ∃ s₂, Evolution.check_progress { s with fitness := a :: rest } = .ok s₂ ∧
        s₂.target_acquired = true ∧ s₂.target_population = some s.target ∧
        s₂.closest_target = some s.target ∧ s₂.max_fitness = some 1 := by
      unfold Evolution.check_progress
      simp only [hmaxq, exBind_ok, hpopget, if_true]
      exact ⟨_, rfl, rfl, rfl, rfl, rfl⟩
    obtain ⟨s₂, h2, h3, h4, h5, h6⟩ := hcheck
    exact ⟨{ s with fitness := a :: rest }, s₂, hgf, h2, h3, h4, h5, h6⟩

/-- C1 witness: acquisition at a concrete state containing the target. -/
theorem check_progress_acquires_witness :
    ∃ s₁ s₂, Evolution.generate_fitness sWithTarget = .ok s₁ ∧
      Evolution.check_progress s₁ = .ok s₂ ∧
      s₂.target_acquired = true ∧
      s₂.target_population = some sWithTarget.target ∧
      s₂.closest_target = some sWithTarget.target ∧
      s₂.max_fitness = some 1 :=
  check_progress_acquires sWithTarget (by decide) (by decide) (by decide)

/-! ### Crossover (C7) -/

/-- C7: for parents at least as long as the target, each offspring position
keeps the first parent's character when it already matches the target and
otherwise takes the second parent's (symmetrically for the second baby via
the same `mkBaby` with the parents swapped); and any successful parent
selection takes `parentB` from the pool entries whose value differs from
`parentA` (value-based exclusion). -/
theorem reproduction_crossover_spec :
    (∀ (target pA pB : List Char) (i : Nat), i < target.length →
       target.length ≤ pA.length → target.length ≤ pB.length →
       (mkBaby target pA pB)[i]? =
         if pA[i]? = target[i]? then pA[i]? else pB[i]?) ∧
    (∀ (g : RandS) (target : List Char) (pool : List (List Char)) (r : RSt)
       (out : (List Char × List Char) × RSt), reproStep g target pool r = .ok out →
       ∃ pA pB, pA ∈ pool ∧ pB ∈ pool ∧ pB ≠ pA ∧
         out.1 = (mkBaby target pA pB, mkBaby target pB pA)) := by
  constructor
  · intro target pA pB i hi hA hB
    have hiA : i < pA.length := lt_of_lt_of_le hi hA
    have hiB : i < pB.length := lt_of_lt_of_le hi hB
    rw [mkBaby_getElem? pA pB hi, List.getElem?_eq_getElem hi,
      List.getElem?_eq_getElem hiA, List.getElem?_eq_getElem hiB]
    have hgA : pA.getD i 'A' = pA[i] := by
      rw [List.getD_eq_getElem?_getD, List.getElem?_eq_getElem hiA]
      rfl
    have hgB : pB.getD i 'A' = pB[i] := by
      rw [List.getD_eq_getElem?_getD, List.getElem?_eq_getElem hiB]
      rfl
    have hgT : target.getD i 'A' = target[i] := by
      rw [List.getD_eq_getElem?_getD, List.getElem?_eq_getElem hi]
      rfl
    rw [hgA, hgB, hgT]
    by_cases h : pA[i] = target[i]
    · rw [if_pos h, if_pos (by rw [h])]
    · rw [if_neg h, if_neg (by simpa using h)]
  · intro g target pool r out h
    obtain ⟨pA, pB, h1, h2, h3, -, -, h6⟩ := reproStep_ok h
    exact ⟨pA, pB, h1, h2, h3, h6⟩

/-- C7 witness: the pointwise law and the value-distinct parent selection
at concrete inputs. -/
theorem reproduction_crossover_spec_witness :
    (mkBaby ['A', 'B'] ['A', 'A'] ['B', 'B'])[1]? = some 'B' ∧
    (∃ pA pB, pA ∈ [['A'], ['B']] ∧ pB ∈ [['A'], ['B']] ∧ pB ≠ pA ∧
      outStep.1 = (mkBaby ['A'] pA pB, mkBaby ['A'] pB pA)) := by
  constructor
  · have h := reproduction_crossover_spec.1 ['A', 'B'] ['A', 'A'] ['B', 'B'] 1
      (by decide) (by decide) (by decide)
    exact h.trans (by decide)
  · exact reproduction_crossover_spec.2 gZero ['A'] [['A'], ['B']] ⟨0, 0⟩ outStep (by decide)

/-! ### Termination of acquisition (C8) -/

theorem new_generation_keeps_acquired {g : RandS} {u : UnifS} {rate : ℚ}
    {s : EvoState} {r : RSt} {s' : EvoState} {r' : RSt}
    (h : Evolution.new_generation g u rate s r = .ok (s', r'))
    (ha : s.target_acquired = true) : s'.target_acquired = true := by
  obtain ⟨s₁, r₁, s₂, r₂, s₃, s₄, s₅, h1, h2, h3, h4, h5, hs', -⟩ := new_generation_ok h
  obtain ⟨pop1, -, hs₁⟩ := reproduction_ok h1
  obtain ⟨pop2, -, hs₂⟩ := mutation_ok h2
  obtain ⟨fs, -, hs₃⟩ := generate_fitness_ok h3
  obtain ⟨m, c, -, -, hcase⟩ := check_progress_ok h4
  obtain ⟨pool, -, hs₅⟩ := create_mating_pool_ok h5
  subst hs₁ hs₂ hs₃ hs₅ hs'
  rcases hcase with ⟨-, h4'⟩ | ⟨-, h4'⟩ <;> subst h4' <;> simp [ha]

/-- C8 counterexample: the claim says an acquired state is never mutated by
a further step, but `evolution_rounds` checks `target_acquired` only after
calling `new_generation`, so with `rounds = 1` on the already-acquired
state `sAcq` (generation 1) one full mutating generation runs and the
resulting generation counter is 2. -/
theorem evolution_rounds_mutates_acquired :
    sAcq.target_acquired = true ∧ sAcq.generation = 1 ∧
    (Evolution.evolution_rounds gZero uZero 0 1 sAcq ⟨0, 0⟩).map
      (fun x => x.1.generation) = .ok 2 :=
  ⟨rfl, rfl, by decide⟩

/-- C8 (amended): `evolution_rounds` on an already-acquired state with a
positive round count executes exactly one further `new_generation` — the
acquired flag, once true, is preserved by every step, so the loop breaks
right after that first (state-mutating) call. -/
theorem evolution_rounds_after_acquired (g : RandS) (u : UnifS) (rate : ℚ)
    (n : Nat) (s : EvoState) (r : RSt) (h : s.target_acquired = true) :
    Evolution.evolution_rounds g u rate (n + 1) s r =
      Evolution.new_generation g u rate s r := by
  rw [Evolution.evolution_rounds]
  rcases hng : Evolution.new_generation g u rate s r with e | ⟨s', r'⟩
  · simp only [hng, exBind_error]
  · simp only [hng, exBind_ok, new_generation_keeps_acquired hng h, if_true]

/-- C8 witness: one round from the acquired state `sAcq` is exactly one
generation step. -/
theorem evolution_rounds_after_acquired_witness :
    Evolution.evolution_rounds gZero uZero 0 1 sAcq ⟨0, 0⟩ =
      Evolution.new_generation gZero uZero 0 sAcq ⟨0, 0⟩ :=
  evolution_rounds_after_acquired gZero uZero 0 0 sAcq ⟨0, 0⟩ rfl

/-! ### Invariants (C4, C10) -/

theorem genPop_out {g : RandS} {target : List Char} :
    ∀ {n : Nat} {r : RSt} {pop : List (List Char)} {r' : RSt},
    genPop g target n r = .ok (pop, r') →
    pop.length = n ∧ (∀ m ∈ pop, m.length = target.length) ∧
      (∀ m ∈ pop, ∀ c ∈ m, c ∈ target)
  | 0, r, pop, r', h => by
    obtain ⟨h1, -⟩ : [] = pop ∧ _ := by simpa [genPop] using h
    subst h1
    exact ⟨rfl, by simp, by simp⟩
  | n + 1, r, pop, r', h => by
    rw [genPop] at h
    unfold generate_random_dna at h
    by_cases hT : target.isEmpty
    · rw [if_pos hT, exBind_error] at h
      exact Except.noConfusion h
    · rw [if_neg hT] at h
      simp only [exBind_ok] at h
      rcases hg : genPop g target n ⟨r.k + target.length, r.j⟩ with e | ⟨rest, r₂⟩
      · simp only [hg, exBind_error] at h
        exact Except.noConfusion h
      · simp only [hg, exBind_ok, Except.ok.injEq, Prod.mk.injEq] at h
        obtain ⟨h1, -⟩ := h
        subst h1
        obtain ⟨hlen, hml, hmc⟩ := genPop_out hg
        have hTne : target ≠ [] := by simpa [List.isEmpty_iff] using hT
        refine ⟨by simp [hlen], ?_, ?_⟩
        · intro m hm
          rcases List.mem_cons.mp hm with rfl | hm'
          · exact drawChars_length ..
          · exact hml m hm'
        · intro m hm
          rcases List.mem_cons.mp hm with rfl | hm'
          · exact drawChars_mem hTne g r.k target.length
          · exact hmc m hm'

theorem fitList_out {t : List Char} :
    ∀ {pop : List (List Char)} {fs : List ℚ}, fitList t pop = .ok fs →
    fs.length = pop.length
  | [], fs, h => by
    obtain h1 : [] = fs := by simpa [fitList] using h
    simp [← h1]
  | m :: ms, fs, h => by
    rw [fitList] at h
    rcases h1 : fitOne t m with e | q
    · simp only [h1, exBind_error] at h
      exact Except.noConfusion h
    · simp only [h1, exBind_ok] at h
      rcases h2 : fitList t ms with e | rest
      · simp only [h2, exBind_error] at h
        exact Except.noConfusion h
      · simp only [h2, exBind_ok, Except.ok.injEq] at h
        subst h
        simp [fitList_out h2]

/-- C4: for a non-empty target and an even population size at least 2, the
initial population has exactly `populationsize` members of the target's
length, and every successful generation step preserves this shape (the
mating-pool members' lengths are carried as part of the invariant). -/
theorem population_shape_invariant :
    (∀ (g : RandS) (target : List Char) (p : ℤ) (r : RSt) (s : EvoState) (r' : RSt),
       target ≠ [] → 2 ≤ p → Even p →
       Evolution.init g target p r = .ok (s, r') →
       ShapeInv s ∧ s.populationsize = p ∧ s.target = target) ∧
    (∀ (g : RandS) (u : UnifS) (rate : ℚ) (s : EvoState) (r : RSt) (s' : EvoState) (r' : RSt),
       s.target ≠ [] → 2 ≤ s.populationsize → Even s.populationsize → ShapeInv s →
       Evolution.new_generation g u rate s r = .ok (s', r') →
       ShapeInv s' ∧ s'.populationsize = s.populationsize ∧ s'.target = s.target) := by
  constructor
  · intro g target p r s r' hT hp2 hpe hinit
    obtain ⟨pop, fs, pool, hgen, hfs, hpool, hcheck⟩ := init_decomp hinit
    obtain ⟨hplen, hml, -⟩ := genPop_out hgen
    obtain ⟨m, c, -, -, hcase⟩ := check_progress_ok hcheck
    have hpoolmem := poolOf_ok_mem hpool
    rcases hcase with ⟨-, h4'⟩ | ⟨-, h4'⟩ <;> subst h4' <;>
      exact ⟨⟨hplen, hml, fun mm hmm => hml mm (hpoolmem mm hmm)⟩, rfl, rfl⟩
  · intro g u rate s r s' r' hT hp2 hpe hinv hng
    obtain ⟨-, -, hlenPool⟩ := hinv
    obtain ⟨s₁, r₁, s₂, r₂, s₃, s₄, s₅, h1, h2, h3, h4, h5, hs', -⟩ := new_generation_ok hng
    obtain ⟨pop1, hrl, hs₁⟩ := reproduction_ok h1
    obtain ⟨hl1, hml1, -⟩ := reproLoop_ok hrl
    obtain ⟨pop2, hmp, hs₂⟩ := mutation_ok h2
    obtain ⟨hl2, hmem2⟩ := mutatePop_ok hmp
    obtain ⟨fs, hfs, hs₃⟩ := generate_fitness_ok h3
    obtain ⟨m, c, -, -, hcase⟩ := check_progress_ok h4
    obtain ⟨pool5, hpool5, hs₅⟩ := create_mating_pool_ok h5
    have htoNat : 2 * (s.populationsize.toNat / 2) = s.populationsize.toNat := by
      obtain ⟨k, hk⟩ := hpe
      omega
    subst hs₁
    subst hs₂
    subst hs₃
    have hmlen2 : ∀ mm ∈ pop2, mm.length = s.target.length := by
      intro mm hmm
      obtain ⟨m0, hm0, hleq, -⟩ := hmem2 mm hmm
      rw [hleq]
      exact hml1 m0 hm0
    rcases hcase with ⟨-, h4'⟩ | ⟨-, h4'⟩ <;> subst h4' <;> subst hs₅ <;> subst hs' <;>
      exact ⟨⟨by dsimp only at hl2 ⊢; omega, hmlen2,
        fun mm hmm => hmlen2 mm (poolOf_ok_mem hpool5 mm hmm)⟩, rfl, rfl⟩

/-- C10: every character of every population member (and mating-pool
member) occurs in the target — established at initialization, where
members are drawn from the target's characters, and preserved by each
generation step, since crossover recombines parent characters from the
pool and mutation redraws only from the target's characters. -/
theorem alphabet_invariant :
    (∀ (g : RandS) (target : List Char) (p : ℤ) (r : RSt) (s : EvoState) (r' : RSt),
       Evolution.init g target p r = .ok (s, r') → CharInv s ∧ s.target = target) ∧
    (∀ (g : RandS) (u : UnifS) (rate : ℚ) (s : EvoState) (r : RSt) (s' : EvoState) (r' : RSt),
       CharInv s → Evolution.new_generation g u rate s r = .ok (s', r') →
       CharInv s' ∧ s'.target = s.target) := by
  constructor
  · intro g target p r s r' hinit
    obtain ⟨pop, fs, pool, hgen, hfs, hpool, hcheck⟩ := init_decomp hinit
    obtain ⟨-, -, hmc⟩ := genPop_out hgen
    obtain ⟨m, c, -, -, hcase⟩ := check_progress_ok hcheck
    have hpoolmem := poolOf_ok_mem hpool
    rcases hcase with ⟨-, h4'⟩ | ⟨-, h4'⟩ <;> subst h4' <;>
      exact ⟨⟨hmc, fun mm hmm => hmc mm (hpoolmem mm hmm)⟩, rfl⟩
  · intro g u rate s r s' r' hinv hng
    obtain ⟨hpopc, hpoolc⟩ := hinv
    obtain ⟨s₁, r₁, s₂, r₂, s₃, s₄, s₅, h1, h2, h3, h4, h5, hs', -⟩ := new_generation_ok hng
    obtain ⟨pop1, hrl, hs₁⟩ := reproduction_ok h1
    obtain ⟨-, -, hmc1⟩ := reproLoop_ok hrl
    obtain ⟨pop2, hmp, hs₂⟩ := mutation_ok h2
    obtain ⟨-, hmem2⟩ := mutatePop_ok hmp
    obtain ⟨fs, hfs, hs₃⟩ := generate_fitness_ok h3
    obtain ⟨m, c, -, -, hcase⟩ := check_progress_ok h4
    obtain ⟨pool5, hpool5, hs₅⟩ := create_mating_pool_ok h5
    subst hs₁
    subst hs₂
    subst hs₃
    have hc1 : ∀ mm ∈ pop1, ∀ ch ∈ mm, ch ∈ s.target := by
      intro mm hmm ch hch
      obtain ⟨q, hq, hchq⟩ := hmc1 mm hmm ch hch
      exact hpoolc q hq ch hchq
    have hc2 : ∀ mm ∈ pop2, ∀ ch ∈ mm, ch ∈ s.target := by
      intro mm hmm ch hch
      obtain ⟨m0, hm0, -, hsub⟩ := hmem2 mm hmm
      rcases hsub ch hch with h' | h'
      · exact hc1 m0 hm0 ch h'
      · exact h'
    rcases hcase with ⟨-, h4'⟩ | ⟨-, h4'⟩ <;> subst h4' <;> subst hs₅ <;> subst hs' <;>
      exact ⟨⟨hc2, fun mm hmm => hc2 mm (poolOf_ok_mem hpool5 mm hmm)⟩, rfl⟩

/-- C4 witness: both invariant parts at concrete runs. -/
theorem population_shape_invariant_witness :
    (ShapeInv sInitTwo ∧ sInitTwo.populationsize = 2 ∧ sInitTwo.target = ['A', 'B']) ∧
    (ShapeInv sStepAcq ∧ sStepAcq.populationsize = sAcq.populationsize ∧
      sStepAcq.target = sAcq.target) :=
  ⟨population_shape_invariant.1 gId ['A', 'B'] 2 ⟨0, 0⟩ sInitTwo rInitTwo (by decide)
      (by decide) ⟨1, rfl⟩ (by decide),
   population_shape_invariant.2 gZero uZero 0 sAcq ⟨0, 0⟩ sStepAcq rStepAcq (by decide)
      (by decide) ⟨1, rfl⟩ (by decide) (by decide)⟩

/-- C10 witness: both alphabet-invariant parts at concrete runs. -/
theorem alphabet_invariant_witness :
    (CharInv sInitTwo ∧ sInitTwo.target = ['A', 'B']) ∧
    (CharInv sStepAcq ∧ sStepAcq.target = sAcq.target) :=
  ⟨alphabet_invariant.1 gId ['A', 'B'] 2 ⟨0, 0⟩ sInitTwo rInitTwo (by decide),
   alphabet_invariant.2 gZero uZero 0 sAcq ⟨0, 0⟩ sStepAcq rStepAcq (by decide) (by decide)⟩
